import Mathlib

/-!
Verification of the Sequential Conjugate Updater of this repository
(notebook cells computing `Sn`, `mn`, the sequential re-update
`So = Sn; mo = mn`, the predictive variance `sx`, and the pyro
model/guide pair `model_obs`/`guide`).

Matrices are embedded over `ℚ` (exact arithmetic).  `np.linalg.inv`
and `np.linalg.solve` raise `LinAlgError` on a singular input; they are
embedded as `Option`-valued functions that return `none` exactly on
singular input and otherwise the exact inverse `det⁻¹ • adjugate`.
-/

open Matrix

/-- Belief state of the updater: mean vector `m` (the notebook's `mo`/`mn`)
and covariance matrix `S` (the notebook's `So`/`Sn`). -/
structure BState (p : ℕ) where
  m : Fin p → ℚ
  S : Matrix (Fin p) (Fin p) ℚ

/-- Executable embedding of `np.linalg.inv` over exact rationals:
`none` on a singular matrix (numpy raises `LinAlgError`), otherwise the
inverse, computed as `det⁻¹ • adjugate`. -/
def npInv {p : ℕ} (A : Matrix (Fin p) (Fin p) ℚ) :
    Option (Matrix (Fin p) (Fin p) ℚ) :=
  if A.det = 0 then none else some (A.det⁻¹ • A.adjugate)

/-- Executable embedding of `np.linalg.solve A b` (exact arithmetic:
`A⁻¹ b`, failing on singular `A` as numpy does). -/
def npSolve {p : ℕ} (A : Matrix (Fin p) (Fin p) ℚ) (b : Fin p → ℚ) :
    Option (Fin p → ℚ) :=
  (npInv A).map (fun Ai => Ai.mulVec b)

/-- The notebook line `Sn = seps**2*np.linalg.inv(np.dot(Phi.T, Phi) +
seps**2*np.linalg.inv(So))`, with its two failure points. -/
def SnLine {n p : ℕ} (S : Matrix (Fin p) (Fin p) ℚ)
    (Phi : Matrix (Fin n) (Fin p) ℚ) (seps : ℚ) :
    Option (Matrix (Fin p) (Fin p) ℚ) :=
  match npInv S with
  | none => none
  | some Soinv =>
    match npInv (Phiᵀ * Phi + seps ^ 2 • Soinv) with
    | none => none
    | some Ainv => some (seps ^ 2 • Ainv)

/-- The notebook line `mn = np.dot(Sn, np.linalg.solve(So, mo)) +
np.dot(Sn, np.dot(Phi.T, y))/seps**2`. -/
def mnLine {n p : ℕ} (S : Matrix (Fin p) (Fin p) ℚ) (m : Fin p → ℚ)
    (Sn : Matrix (Fin p) (Fin p) ℚ) (Phi : Matrix (Fin n) (Fin p) ℚ)
    (y : Fin n → ℚ) (seps : ℚ) : Option (Fin p → ℚ) :=
  match npSolve S m with
  | none => none
  | some pr => some (Sn.mulVec pr + (seps ^ 2)⁻¹ • Sn.mulVec (Phiᵀ.mulVec y))

/-- One conjugate update: both notebook lines in order; `none` when any
linear-algebra call raises. -/
def update {n p : ℕ} (s : BState p) (Phi : Matrix (Fin n) (Fin p) ℚ)
    (y : Fin n → ℚ) (seps : ℚ) : Option (BState p) :=
  match SnLine s.S Phi seps with
  | none => none
  | some Sn =>
    match mnLine s.S s.m Sn Phi y seps with
    | none => none
    | some mn => some ⟨mn, Sn⟩

/-- The state left in the notebook variables after running the update
cell: an exception on the `Sn` line leaves `(mo, So)` (the previous
`(mn, Sn)`) untouched; an exception on the `mn` line would leave the
fresh `Sn` with the stale mean. -/
def runCell {n p : ℕ} (s : BState p) (Phi : Matrix (Fin n) (Fin p) ℚ)
    (y : Fin n → ℚ) (seps : ℚ) : BState p :=
  match SnLine s.S Phi seps with
  | none => s
  | some Sn =>
    match mnLine s.S s.m Sn Phi y seps with
    | none => ⟨s.m, Sn⟩
    | some mn => ⟨mn, Sn⟩

/-- Single-observation update: one design row `phi` and one target. -/
def update1 {p : ℕ} (s : BState p) (phi : Fin p → ℚ) (yv : ℚ) (seps : ℚ) :
    Option (BState p) :=
  update s (Matrix.of ![phi]) ![yv] seps

/-- The notebook's sequential re-update (`So = Sn; mo = mn` then update),
once per observation in list order. -/
def seqUpdate {p : ℕ} (seps : ℚ) (s : BState p) :
    List ((Fin p → ℚ) × ℚ) → Option (BState p)
  | [] => some s
  | ob :: l => (update1 s ob.1 ob.2 seps).bind (fun s1 => seqUpdate seps s1 l)

/-- Design matrix assembled from a list of observations (one row each). -/
def batchPhi {p : ℕ} (l : List ((Fin p → ℚ) × ℚ)) :
    Matrix (Fin l.length) (Fin p) ℚ :=
  Matrix.of fun i j => (l.get i).1 j

/-- Target vector assembled from a list of observations. -/
def batchY {p : ℕ} (l : List ((Fin p → ℚ) × ℚ)) : Fin l.length → ℚ :=
  fun i => (l.get i).2

/-- Predictive mean at design vector `x`: the notebook's
`np.dot(Phi_x, mn)`, one row at a time. -/
def predictMean {p : ℕ} (s : BState p) (x : Fin p → ℚ) : ℚ :=
  x ⬝ᵥ s.m

/-- Predictive variance at design vector `x`: the quantity under the
square root in the notebook's `sx = np.sqrt(diag(seps**2 +
np.dot(np.dot(Phi_x, Sn), Phi_x.T)))`, one row at a time. -/
def predictVar {p : ℕ} (s : BState p) (x : Fin p → ℚ) (seps : ℚ) : ℚ :=
  seps ^ 2 + x ⬝ᵥ s.S.mulVec x

/-- The epistemic (parameter-uncertainty) term `xᵀ Σ x` of the
predictive variance. -/
def epiVar {p : ℕ} (s : BState p) (x : Fin p → ℚ) : ℚ :=
  x ⬝ᵥ s.S.mulVec x

/-- Symmetric positive-semidefinite rational matrix. -/
def PosSemidefQ {p : ℕ} (A : Matrix (Fin p) (Fin p) ℚ) : Prop :=
  Aᵀ = A ∧ ∀ x : Fin p → ℚ, 0 ≤ x ⬝ᵥ A.mulVec x

/-- Symmetric positive-definite rational matrix. -/
def PosDefQ {p : ℕ} (A : Matrix (Fin p) (Fin p) ℚ) : Prop :=
  Aᵀ = A ∧ ∀ x : Fin p → ℚ, x ≠ 0 → 0 < x ⬝ᵥ A.mulVec x

/-- Outer product `phi phiᵀ` of a design row with itself. -/
def outerQ {p : ℕ} (phi : Fin p → ℚ) : Matrix (Fin p) (Fin p) ℚ :=
  Matrix.of fun i j => phi i * phi j

/-! ### Basic facts about the executable inverse and the quadratic-form order -/

lemma npInv_eq {p : ℕ} (A : Matrix (Fin p) (Fin p) ℚ) :
    npInv A = if A.det = 0 then none else some A⁻¹ := by
  rw [npInv, Matrix.inv_def, Ring.inverse_eq_inv]

lemma npInv_of_det_ne {p : ℕ} {A : Matrix (Fin p) (Fin p) ℚ}
    (h : A.det ≠ 0) : npInv A = some A⁻¹ := by
  rw [npInv_eq, if_neg h]

lemma dotProduct_self_nonneg {p : ℕ} (x : Fin p → ℚ) : 0 ≤ x ⬝ᵥ x :=
  Finset.sum_nonneg fun i _ => mul_self_nonneg (x i)

lemma dotProduct_self_pos {p : ℕ} {x : Fin p → ℚ} (hx : x ≠ 0) :
    0 < x ⬝ᵥ x := by
  rcases Function.ne_iff.mp hx with ⟨i, hi⟩
  have : (0:ℚ) < x i * x i := mul_self_pos.mpr hi
  calc (0:ℚ) < x i * x i := this
    _ ≤ ∑ j, x j * x j :=
        Finset.single_le_sum (fun j _ => mul_self_nonneg (x j)) (Finset.mem_univ i)
    _ = x ⬝ᵥ x := rfl

lemma PosDefQ.posSemidefQ {p : ℕ} {A : Matrix (Fin p) (Fin p) ℚ}
    (h : PosDefQ A) : PosSemidefQ A := by
  refine ⟨h.1, fun x => ?_⟩
  by_cases hx : x = 0
  · simp [hx]
  · exact le_of_lt (h.2 x hx)

lemma PosDefQ.det_ne_zero {p : ℕ} {A : Matrix (Fin p) (Fin p) ℚ}
    (h : PosDefQ A) : A.det ≠ 0 := by
  intro hdet
  obtain ⟨v, hv, hAv⟩ := Matrix.exists_mulVec_eq_zero_iff.mpr hdet
  have := h.2 v hv
  rw [hAv] at this
  simp at this

lemma PosDefQ.isUnit_det {p : ℕ} {A : Matrix (Fin p) (Fin p) ℚ}
    (h : PosDefQ A) : IsUnit A.det :=
  isUnit_iff_ne_zero.mpr h.det_ne_zero

lemma PosDefQ.inv {p : ℕ} {A : Matrix (Fin p) (Fin p) ℚ}
    (h : PosDefQ A) : PosDefQ A⁻¹ := by
  have hu : IsUnit A.det := h.isUnit_det
  constructor
  · rw [Matrix.transpose_nonsing_inv, h.1]
  · intro x hx
    have hAx : A.mulVec (A⁻¹.mulVec x) = x := by
      rw [Matrix.mulVec_mulVec, Matrix.mul_nonsing_inv _ hu, Matrix.one_mulVec]
    have hw : A⁻¹.mulVec x ≠ 0 := by
      intro h0
      rw [h0] at hAx
      rw [Matrix.mulVec_zero] at hAx
      exact hx hAx.symm
    have : x ⬝ᵥ A⁻¹.mulVec x = (A⁻¹.mulVec x) ⬝ᵥ A.mulVec (A⁻¹.mulVec x) := by
      rw [hAx, Matrix.dotProduct_comm]
    rw [this]
    exact h.2 _ hw

lemma posSemidefQ_transpose_mul_self {n p : ℕ} (Phi : Matrix (Fin n) (Fin p) ℚ) :
    PosSemidefQ (Phiᵀ * Phi) := by
  constructor
  · rw [Matrix.transpose_mul, Matrix.transpose_transpose]
  · intro x
    have : x ⬝ᵥ (Phiᵀ * Phi).mulVec x = (Phi.mulVec x) ⬝ᵥ (Phi.mulVec x) := by
      rw [← Matrix.mulVec_mulVec, Matrix.dotProduct_mulVec, ← Matrix.mulVec_transpose,
        Matrix.transpose_transpose]
    rw [this]
    exact dotProduct_self_nonneg _

lemma PosDefQ.add_posSemidefQ {p : ℕ} {A B : Matrix (Fin p) (Fin p) ℚ}
    (hA : PosDefQ A) (hB : PosSemidefQ B) : PosDefQ (A + B) := by
  refine ⟨by rw [Matrix.transpose_add, hA.1, hB.1], fun x hx => ?_⟩
  rw [Matrix.add_mulVec, Matrix.dotProduct_add]
  have := hA.2 x hx
  have := hB.2 x
  linarith

lemma PosSemidefQ.add_posDefQ {p : ℕ} {A B : Matrix (Fin p) (Fin p) ℚ}
    (hA : PosSemidefQ A) (hB : PosDefQ B) : PosDefQ (A + B) := by
  refine ⟨by rw [Matrix.transpose_add, hA.1, hB.1], fun x hx => ?_⟩
  rw [Matrix.add_mulVec, Matrix.dotProduct_add]
  have := hA.2 x
  have := hB.2 x hx
  linarith

lemma PosDefQ.smul {p : ℕ} {A : Matrix (Fin p) (Fin p) ℚ} {c : ℚ}
    (hA : PosDefQ A) (hc : 0 < c) : PosDefQ (c • A) := by
  refine ⟨by rw [Matrix.transpose_smul, hA.1], fun x hx => ?_⟩
  rw [Matrix.smul_mulVec_assoc, Matrix.dotProduct_smul, smul_eq_mul]
  exact mul_pos hc (hA.2 x hx)

lemma posDefQ_one {p : ℕ} : PosDefQ (1 : Matrix (Fin p) (Fin p) ℚ) := by
  refine ⟨Matrix.transpose_one, fun x hx => ?_⟩
  rw [Matrix.one_mulVec]
  exact dotProduct_self_pos hx

lemma dot_mulVec_symm {p : ℕ} {A : Matrix (Fin p) (Fin p) ℚ} (h : Aᵀ = A)
    (u v : Fin p → ℚ) : u ⬝ᵥ A.mulVec v = v ⬝ᵥ A.mulVec u := by
  rw [Matrix.dotProduct_mulVec, ← Matrix.mulVec_transpose, h, Matrix.dotProduct_comm]

lemma expand_quad {p : ℕ} (A : Matrix (Fin p) (Fin p) ℚ) (x y : Fin p → ℚ) (t : ℚ) :
    (x + t • y) ⬝ᵥ A.mulVec (x + t • y) =
      x ⬝ᵥ A.mulVec x + t * (x ⬝ᵥ A.mulVec y) + t * (y ⬝ᵥ A.mulVec x)
        + t ^ 2 * (y ⬝ᵥ A.mulVec y) := by
  simp only [Matrix.mulVec_add, Matrix.mulVec_smul, Matrix.dotProduct_add,
    Matrix.add_dotProduct, Matrix.dotProduct_smul, Matrix.smul_dotProduct, smul_eq_mul]
  ring

lemma expand_sub {p : ℕ} (A : Matrix (Fin p) (Fin p) ℚ) (u w : Fin p → ℚ) :
    (u - w) ⬝ᵥ A.mulVec (u - w) =
      u ⬝ᵥ A.mulVec u - u ⬝ᵥ A.mulVec w - w ⬝ᵥ A.mulVec u + w ⬝ᵥ A.mulVec w := by
  simp only [Matrix.mulVec_sub, Matrix.dotProduct_sub, Matrix.sub_dotProduct]
  ring

lemma PosSemidefQ.posDefQ_of_det_ne {p : ℕ} {A : Matrix (Fin p) (Fin p) ℚ}
    (h : PosSemidefQ A) (hd : A.det ≠ 0) : PosDefQ A := by
  refine ⟨h.1, fun x hx => ?_⟩
  rcases lt_or_eq_of_le (h.2 x) with hlt | heq
  · exact hlt
  have hAx : A.mulVec x = 0 := by
    funext i
    have key : ∀ y : Fin p → ℚ, y ⬝ᵥ A.mulVec x = 0 := by
      intro y
      set a : ℚ := y ⬝ᵥ A.mulVec y with ha
      set b : ℚ := y ⬝ᵥ A.mulVec x with hb
      have hxy : x ⬝ᵥ A.mulVec y = b := dot_mulVec_symm h.1 x y
      have hnn : ∀ t : ℚ, 0 ≤ 2 * t * b + t ^ 2 * a := by
        intro t
        have h0 := h.2 (x + t • y)
        rw [expand_quad] at h0
        rw [hxy, ← hb] at h0
        rw [← heq] at h0
        linarith
      have ha0 : 0 ≤ a := h.2 y
      rcases eq_or_lt_of_le ha0 with haz | hap
      · have h1 := hnn (-b)
        rw [← haz] at h1
        nlinarith [sq_nonneg b]
      · have h1 := hnn (-(b / a))
        have h2 : (2 * (-(b / a)) * b + (-(b / a)) ^ 2 * a) * a = -(b ^ 2) := by
          field_simp
          ring
        have h3 : (0:ℚ) ≤ -(b ^ 2) := by
          rw [← h2]
          exact mul_nonneg h1 (le_of_lt hap)
        nlinarith [sq_nonneg b]
    have := key (Pi.single i 1)
    rw [Matrix.single_dotProduct] at this
    simpa using this
  exact absurd (Matrix.exists_mulVec_eq_zero_iff.mp ⟨x, hx, hAx⟩) hd

lemma quad_bound {p : ℕ} {B : Matrix (Fin p) (Fin p) ℚ}
    (hB : PosSemidefQ B) (hd : B.det ≠ 0) (u x : Fin p → ℚ) :
    2 * (u ⬝ᵥ x) - u ⬝ᵥ B.mulVec u ≤ x ⬝ᵥ B⁻¹.mulVec x := by
  have hu : IsUnit B.det := isUnit_iff_ne_zero.mpr hd
  set w := B⁻¹.mulVec x with hw
  have hBw : B.mulVec w = x := by
    rw [hw, Matrix.mulVec_mulVec, Matrix.mul_nonsing_inv _ hu, Matrix.one_mulVec]
  have h0 : 0 ≤ (u - w) ⬝ᵥ B.mulVec (u - w) := hB.2 _
  rw [expand_sub] at h0
  have h1 : u ⬝ᵥ B.mulVec w = u ⬝ᵥ x := by rw [hBw]
  have h2 : w ⬝ᵥ B.mulVec u = u ⬝ᵥ x := by
    rw [dot_mulVec_symm hB.1, h1]
  have h3 : w ⬝ᵥ B.mulVec w = x ⬝ᵥ B⁻¹.mulVec x := by
    rw [hBw]
    rw [Matrix.dotProduct_comm]
  linarith

lemma PosSemidefQ.exists_diag_pos {p : ℕ} {A : Matrix (Fin p) (Fin p) ℚ}
    (h : PosSemidefQ A) (hA : A ≠ 0) : ∃ i, 0 < A i i := by
  by_contra hcon
  push_neg at hcon
  have hdiag : ∀ i, A i i = 0 := by
    intro i
    have hnn : 0 ≤ A i i := by
      have := h.2 (Pi.single i 1)
      rw [Matrix.single_dotProduct, Matrix.mulVec_single] at this
      simpa using this
    exact le_antisymm (hcon i) hnn
  apply hA
  ext i j
  rcases eq_or_ne i j with rfl | hij
  · simp [hdiag i]
  · have hsymm : A j i = A i j := by
      conv_lhs => rw [← h.1]
      rw [Matrix.transpose_apply]
    have hdot : ∀ t : ℚ, (Pi.single i 1) ⬝ᵥ A.mulVec (Pi.single j t) = A i j * t := by
      intro t
      rw [Matrix.mulVec_single, Matrix.single_dotProduct]
      simp
    have hq : ∀ t : ℚ, 0 ≤ 2 * (t * A i j) + t ^ 2 * A j j := by
      intro t
      have h0 := h.2 ((Pi.single i (1:ℚ) : Fin p → ℚ) + t • (Pi.single j (1:ℚ) : Fin p → ℚ))
      rw [expand_quad] at h0
      have e1 : (Pi.single i (1:ℚ)) ⬝ᵥ A.mulVec (Pi.single i 1) = A i i := by
        rw [Matrix.mulVec_single, Matrix.single_dotProduct]
        simp
      have e2 : (Pi.single i (1:ℚ)) ⬝ᵥ A.mulVec (Pi.single j 1) = A i j := by
        rw [Matrix.mulVec_single, Matrix.single_dotProduct]
        simp
      have e3 : (Pi.single j (1:ℚ)) ⬝ᵥ A.mulVec (Pi.single i 1) = A j i := by
        rw [Matrix.mulVec_single, Matrix.single_dotProduct]
        simp
      have e4 : (Pi.single j (1:ℚ)) ⬝ᵥ A.mulVec (Pi.single j 1) = A j j := by
        rw [Matrix.mulVec_single, Matrix.single_dotProduct]
        simp
      rw [e1, e2, e3, e4, hdiag i, hsymm] at h0
      linarith
    have hp := hq 1
    have hm := hq (-1)
    rw [hdiag j] at hp hm
    have : A i j = 0 := by linarith
    simp [this]

/-! ### Exact form of a successful update -/

lemma update_eq_formula {n p : ℕ} (s : BState p) (Phi : Matrix (Fin n) (Fin p) ℚ)
    (y : Fin n → ℚ) (σ : ℚ) (hd : s.S.det ≠ 0)
    (hA : (Phiᵀ * Phi + σ ^ 2 • s.S⁻¹).det ≠ 0) :
    update s Phi y σ = some
      ⟨(σ ^ 2 • (Phiᵀ * Phi + σ ^ 2 • s.S⁻¹)⁻¹).mulVec (s.S⁻¹.mulVec s.m)
          + (σ ^ 2)⁻¹ • (σ ^ 2 • (Phiᵀ * Phi + σ ^ 2 • s.S⁻¹)⁻¹).mulVec (Phiᵀ.mulVec y),
        σ ^ 2 • (Phiᵀ * Phi + σ ^ 2 • s.S⁻¹)⁻¹⟩ := by
  simp only [update, SnLine, mnLine, npSolve, npInv_of_det_ne hd, npInv_of_det_ne hA,
    Option.map_some']

lemma update_none_iff {n p : ℕ} (s : BState p) (Phi : Matrix (Fin n) (Fin p) ℚ)
    (y : Fin n → ℚ) (σ : ℚ) :
    update s Phi y σ = none ↔
      s.S.det = 0 ∨ (Phiᵀ * Phi + σ ^ 2 • s.S⁻¹).det = 0 := by
  by_cases hd : s.S.det = 0
  · have h1 : npInv s.S = none := by rw [npInv_eq, if_pos hd]
    simp only [update, SnLine, h1]
    exact iff_of_true trivial (Or.inl hd)
  · by_cases hA : (Phiᵀ * Phi + σ ^ 2 • s.S⁻¹).det = 0
    · have h1 : npInv (Phiᵀ * Phi + σ ^ 2 • s.S⁻¹) = none := by
        rw [npInv_eq, if_pos hA]
      simp only [update, SnLine, npInv_of_det_ne hd, h1]
      exact iff_of_true trivial (Or.inr hA)
    · rw [update_eq_formula s Phi y σ hd hA]
      exact iff_of_false (Option.some_ne_none _) (not_or.mpr ⟨hd, hA⟩)

lemma update_some_inv {n p : ℕ} {s s1 : BState p} {Phi : Matrix (Fin n) (Fin p) ℚ}
    {y : Fin n → ℚ} {σ : ℚ} (h : update s Phi y σ = some s1) :
    s.S.det ≠ 0 ∧ (Phiᵀ * Phi + σ ^ 2 • s.S⁻¹).det ≠ 0 ∧
      s1.S = σ ^ 2 • (Phiᵀ * Phi + σ ^ 2 • s.S⁻¹)⁻¹ ∧
      s1.m = (σ ^ 2 • (Phiᵀ * Phi + σ ^ 2 • s.S⁻¹)⁻¹).mulVec (s.S⁻¹.mulVec s.m)
          + (σ ^ 2)⁻¹ • (σ ^ 2 • (Phiᵀ * Phi + σ ^ 2 • s.S⁻¹)⁻¹).mulVec (Phiᵀ.mulVec y) := by
  by_cases hd : s.S.det = 0
  · rw [(update_none_iff s Phi y σ).mpr (Or.inl hd)] at h
    exact absurd h (by simp)
  by_cases hA : (Phiᵀ * Phi + σ ^ 2 • s.S⁻¹).det = 0
  · rw [(update_none_iff s Phi y σ).mpr (Or.inr hA)] at h
    exact absurd h (by simp)
  rw [update_eq_formula s Phi y σ hd hA] at h
  have hs1 := (Option.some.injEq _ _).mp h
  refine ⟨hd, hA, ?_, ?_⟩
  · rw [← hs1]
  · rw [← hs1]

lemma A_posDefQ {n p : ℕ} {s : BState p} (Phi : Matrix (Fin n) (Fin p) ℚ) {σ : ℚ}
    (hS : PosDefQ s.S) (hσ : σ ≠ 0) : PosDefQ (Phiᵀ * Phi + σ ^ 2 • s.S⁻¹) :=
  (posSemidefQ_transpose_mul_self Phi).add_posDefQ (hS.inv.smul (by positivity))

lemma update_isSome {n p : ℕ} (s : BState p) (Phi : Matrix (Fin n) (Fin p) ℚ)
    (y : Fin n → ℚ) {σ : ℚ} (hS : PosDefQ s.S) (hσ : σ ≠ 0) :
    ∃ s1, update s Phi y σ = some s1 :=
  ⟨_, update_eq_formula s Phi y σ hS.det_ne_zero (A_posDefQ Phi hS hσ).det_ne_zero⟩

/-- Information form of a successful update: the posterior covariance is
positive definite, the precision gains `(1/σ²) ΦᵀΦ`, and the precision-
weighted mean gains `(1/σ²) Φᵀy`. -/
lemma update_spec {n p : ℕ} {s s1 : BState p} {Phi : Matrix (Fin n) (Fin p) ℚ}
    {y : Fin n → ℚ} {σ : ℚ} (hS : PosDefQ s.S) (hσ : σ ≠ 0)
    (h : update s Phi y σ = some s1) :
    PosDefQ s1.S ∧ s1.S⁻¹ = s.S⁻¹ + (σ ^ 2)⁻¹ • (Phiᵀ * Phi) ∧
      s1.S⁻¹.mulVec s1.m = s.S⁻¹.mulVec s.m + (σ ^ 2)⁻¹ • Phiᵀ.mulVec y := by
  obtain ⟨hd, hA, hS1, hm1⟩ := update_some_inv h
  have hApd : PosDefQ (Phiᵀ * Phi + σ ^ 2 • s.S⁻¹) := A_posDefQ Phi hS hσ
  have hσ2 : (σ : ℚ) ^ 2 ≠ 0 := pow_ne_zero 2 hσ
  have hSnpd : PosDefQ s1.S := by
    rw [hS1]
    exact hApd.inv.smul (by positivity)
  have hinv : s1.S⁻¹ = (σ ^ 2)⁻¹ • (Phiᵀ * Phi + σ ^ 2 • s.S⁻¹) := by
    rw [hS1]
    apply Matrix.inv_eq_left_inv
    rw [Matrix.smul_mul, Matrix.mul_smul, smul_smul, inv_mul_cancel₀ hσ2, one_smul,
      Matrix.mul_nonsing_inv _ hApd.isUnit_det]
  have hinfo : s1.S⁻¹ = s.S⁻¹ + (σ ^ 2)⁻¹ • (Phiᵀ * Phi) := by
    rw [hinv, smul_add, smul_smul, inv_mul_cancel₀ hσ2, one_smul, add_comm]
  refine ⟨hSnpd, hinfo, ?_⟩
  have hm1S : s1.m = s1.S.mulVec ((s.S⁻¹.mulVec s.m) + (σ ^ 2)⁻¹ • Phiᵀ.mulVec y) := by
    rw [Matrix.mulVec_add, Matrix.mulVec_smul, hS1]
    exact hm1
  rw [hm1S, Matrix.mulVec_mulVec, Matrix.nonsing_inv_mul _ hSnpd.isUnit_det,
    Matrix.one_mulVec]

lemma state_eq_of_info {p : ℕ} {s1 s2 : BState p}
    (h1 : PosDefQ s1.S) (h2 : PosDefQ s2.S) (hS : s1.S⁻¹ = s2.S⁻¹)
    (hm : s1.S⁻¹.mulVec s1.m = s2.S⁻¹.mulVec s2.m) : s1 = s2 := by
  have hSeq : s1.S = s2.S := by
    rw [← Matrix.nonsing_inv_nonsing_inv s1.S h1.isUnit_det, hS,
      Matrix.nonsing_inv_nonsing_inv s2.S h2.isUnit_det]
  have hmeq : s1.m = s2.m := by
    have e1 : s1.S.mulVec (s1.S⁻¹.mulVec s1.m) = s1.m := by
      rw [Matrix.mulVec_mulVec, Matrix.mul_nonsing_inv _ h1.isUnit_det, Matrix.one_mulVec]
    have e2 : s2.S.mulVec (s2.S⁻¹.mulVec s2.m) = s2.m := by
      rw [Matrix.mulVec_mulVec, Matrix.mul_nonsing_inv _ h2.isUnit_det, Matrix.one_mulVec]
    rw [← e1, hm, hSeq, e2]
  cases s1
  cases s2
  simp only [BState.mk.injEq]
  exact ⟨hmeq, hSeq⟩

/-! ### Single-row and batch bridges -/

lemma row_gram {p : ℕ} (phi : Fin p → ℚ) :
    (Matrix.of ![phi])ᵀ * Matrix.of ![phi] = outerQ phi := by
  ext i j
  rw [Matrix.mul_apply, Fin.sum_univ_one]
  simp [outerQ, Matrix.transpose_apply]

lemma row_vec {p : ℕ} (phi : Fin p → ℚ) (yv : ℚ) :
    (Matrix.of ![phi])ᵀ.mulVec ![yv] = yv • phi := by
  funext i
  simp [Matrix.mulVec, Matrix.dotProduct, Fin.sum_univ_one, Matrix.transpose_apply,
    mul_comm]

lemma fin_sum_get {α : Type} (l : List α) (g : α → ℚ) :
    ∑ k : Fin l.length, g (l.get k) = (l.map g).sum := by
  induction l with
  | nil => simp
  | cons a t ih =>
    rw [List.map_cons, List.sum_cons, ← ih]
    exact Fin.sum_univ_succ fun k : Fin (a :: t).length => g ((a :: t).get k)

lemma list_matrix_sum_apply {p : ℕ} (l : List (Matrix (Fin p) (Fin p) ℚ))
    (i j : Fin p) : l.sum i j = (l.map fun M => M i j).sum := by
  induction l with
  | nil => simp [Matrix.zero_apply]
  | cons a t ih => simp [List.sum_cons, Matrix.add_apply, ih]

lemma list_vec_sum_apply {p : ℕ} (l : List (Fin p → ℚ)) (i : Fin p) :
    l.sum i = (l.map fun v => v i).sum := by
  induction l with
  | nil => simp
  | cons a t ih => simp [List.sum_cons, ih]

lemma batchPhi_gram {p : ℕ} (l : List ((Fin p → ℚ) × ℚ)) :
    (batchPhi l)ᵀ * batchPhi l = (l.map fun ob => outerQ ob.1).sum := by
  ext i j
  rw [Matrix.mul_apply, list_matrix_sum_apply, List.map_map, ← fin_sum_get]
  apply Finset.sum_congr rfl
  intro k _
  simp [batchPhi, outerQ, Matrix.transpose_apply, Function.comp, mul_comm]

lemma batchPhi_vec {p : ℕ} (l : List ((Fin p → ℚ) × ℚ)) :
    (batchPhi l)ᵀ.mulVec (batchY l) = (l.map fun ob => ob.2 • ob.1).sum := by
  funext i
  rw [list_vec_sum_apply, List.map_map]
  rw [show ((fun v : Fin p → ℚ => v i) ∘ fun ob : (Fin p → ℚ) × ℚ => ob.2 • ob.1)
      = fun ob : (Fin p → ℚ) × ℚ => ob.2 * ob.1 i from rfl]
  rw [← fin_sum_get]
  simp [Matrix.mulVec, Matrix.dotProduct, Matrix.transpose_apply, batchPhi, batchY,
    mul_comm]

lemma update1_spec {p : ℕ} {s s1 : BState p} {phi : Fin p → ℚ} {yv σ : ℚ}
    (hS : PosDefQ s.S) (hσ : σ ≠ 0) (h : update1 s phi yv σ = some s1) :
    PosDefQ s1.S ∧ s1.S⁻¹ = s.S⁻¹ + (σ ^ 2)⁻¹ • outerQ phi ∧
      s1.S⁻¹.mulVec s1.m = s.S⁻¹.mulVec s.m + (σ ^ 2)⁻¹ • (yv • phi) := by
  have h' : update s (Matrix.of ![phi]) ![yv] σ = some s1 := h
  obtain ⟨pd, hSi, hmi⟩ := update_spec hS hσ h'
  rw [row_gram] at hSi
  rw [row_vec] at hmi
  exact ⟨pd, hSi, hmi⟩

lemma update1_isSome {p : ℕ} (s : BState p) (phi : Fin p → ℚ) (yv : ℚ) {σ : ℚ}
    (hS : PosDefQ s.S) (hσ : σ ≠ 0) : ∃ s1, update1 s phi yv σ = some s1 :=
  update_isSome s (Matrix.of ![phi]) ![yv] hS hσ

lemma seqUpdate_info {p : ℕ} {σ : ℚ} (hσ : σ ≠ 0) :
    ∀ (l : List ((Fin p → ℚ) × ℚ)) (s : BState p), PosDefQ s.S →
      ∃ s1, seqUpdate σ s l = some s1 ∧ PosDefQ s1.S ∧
        s1.S⁻¹ = s.S⁻¹ + (σ ^ 2)⁻¹ • (l.map fun ob => outerQ ob.1).sum ∧
        s1.S⁻¹.mulVec s1.m
          = s.S⁻¹.mulVec s.m + (σ ^ 2)⁻¹ • (l.map fun ob => ob.2 • ob.1).sum := by
  intro l
  induction l with
  | nil =>
    intro s hS
    exact ⟨s, rfl, hS, by simp, by simp⟩
  | cons ob t ih =>
    intro s hS
    obtain ⟨s1, h1⟩ := update1_isSome s ob.1 ob.2 hS hσ
    obtain ⟨pd1, hSi, hmi⟩ := update1_spec hS hσ h1
    obtain ⟨s2, h2, pd2, hSi2, hmi2⟩ := ih s1 pd1
    refine ⟨s2, ?_, pd2, ?_, ?_⟩
    · rw [seqUpdate, h1, Option.some_bind]
      exact h2
    · rw [hSi2, hSi, List.map_cons, List.sum_cons, smul_add, add_assoc]
    · rw [hmi2, hmi, List.map_cons, List.sum_cons, smul_add, add_assoc]

/-! ### Predictive-variance monotonicity, eigen-direction invariance, failure atomicity -/

lemma predictVar_mono {n p : ℕ} {s s1 : BState p} {Phi : Matrix (Fin n) (Fin p) ℚ}
    {y : Fin n → ℚ} {σ : ℚ} (hS : PosDefQ s.S) (hσ : σ ≠ 0)
    (h : update s Phi y σ = some s1) (x : Fin p → ℚ) :
    predictVar s1 x σ ≤ predictVar s x σ := by
  obtain ⟨pd1, hinfo, -⟩ := update_spec hS hσ h
  have hBpd : PosDefQ s.S⁻¹ := hS.inv
  set u := s1.S.mulVec x with hu
  have hΛu : s1.S⁻¹.mulVec u = x := by
    rw [hu, Matrix.mulVec_mulVec, Matrix.nonsing_inv_mul _ pd1.isUnit_det,
      Matrix.one_mulVec]
  have e1 : x ⬝ᵥ s1.S.mulVec x = u ⬝ᵥ x := Matrix.dotProduct_comm x u
  have e2 : u ⬝ᵥ s1.S⁻¹.mulVec u = u ⬝ᵥ x := by rw [hΛu]
  have e3 : u ⬝ᵥ s1.S⁻¹.mulVec u
      = u ⬝ᵥ s.S⁻¹.mulVec u + (σ ^ 2)⁻¹ * (u ⬝ᵥ (Phiᵀ * Phi).mulVec u) := by
    rw [hinfo, Matrix.add_mulVec, Matrix.dotProduct_add, Matrix.smul_mulVec_assoc,
      Matrix.dotProduct_smul, smul_eq_mul]
  have hgram : 0 ≤ u ⬝ᵥ (Phiᵀ * Phi).mulVec u := (posSemidefQ_transpose_mul_self Phi).2 u
  have hc : (0:ℚ) ≤ (σ ^ 2)⁻¹ := by positivity
  have hq := quad_bound hBpd.posSemidefQ hBpd.det_ne_zero u x
  have hBinv : s.S⁻¹⁻¹ = s.S := Matrix.nonsing_inv_nonsing_inv _ hS.isUnit_det
  rw [hBinv] at hq
  have hmain : x ⬝ᵥ s1.S.mulVec x ≤ x ⬝ᵥ s.S.mulVec x := by
    have hnn : 0 ≤ (σ ^ 2)⁻¹ * (u ⬝ᵥ (Phiᵀ * Phi).mulVec u) := mul_nonneg hc hgram
    linarith
  rw [predictVar, predictVar]
  linarith

lemma outerQ_mulVec_orth {p : ℕ} {phi x : Fin p → ℚ} (h : phi ⬝ᵥ x = 0) :
    (outerQ phi).mulVec x = 0 := by
  funext i
  show (∑ j, outerQ phi i j * x j) = 0
  have : ∀ j, outerQ phi i j * x j = phi i * (phi j * x j) := by
    intro j
    show phi i * phi j * x j = phi i * (phi j * x j)
    ring
  rw [Finset.sum_congr rfl fun j _ => this j, ← Finset.mul_sum]
  have hx : (∑ j, phi j * x j) = 0 := h
  rw [hx, mul_zero]

lemma seqUpdate_eigen {p : ℕ} {σ c : ℚ} (hσ : σ ≠ 0) (hc : c ≠ 0) {x : Fin p → ℚ} :
    ∀ (l : List ((Fin p → ℚ) × ℚ)) (s : BState p), PosDefQ s.S →
      s.S.mulVec x = c • x → (∀ ob ∈ l, ob.1 ⬝ᵥ x = 0) →
      ∀ {s1 : BState p}, seqUpdate σ s l = some s1 → s1.S.mulVec x = c • x := by
  intro l
  induction l with
  | nil =>
    intro s hS hsx horth s1 h
    rw [seqUpdate] at h
    obtain rfl : s = s1 := Option.some.inj h
    exact hsx
  | cons ob t ih =>
    intro s hS hsx horth s1 h
    rw [seqUpdate] at h
    obtain ⟨sm, hsm⟩ := update1_isSome s ob.1 ob.2 hS hσ
    rw [hsm, Option.some_bind] at h
    obtain ⟨pdm, hSim, -⟩ := update1_spec hS hσ hsm
    have hSinv_x : s.S⁻¹.mulVec x = c⁻¹ • x := by
      have h0 := congrArg (fun v => s.S⁻¹.mulVec v) hsx
      simp only [Matrix.mulVec_mulVec, Matrix.nonsing_inv_mul _ hS.isUnit_det,
        Matrix.one_mulVec, Matrix.mulVec_smul] at h0
      calc s.S⁻¹.mulVec x = c⁻¹ • (c • s.S⁻¹.mulVec x) := by
            rw [smul_smul, inv_mul_cancel₀ hc, one_smul]
        _ = c⁻¹ • x := by rw [← h0]
    have houter : (outerQ ob.1).mulVec x = 0 :=
      outerQ_mulVec_orth (horth ob (List.mem_cons_self ob t))
    have hmx : sm.S⁻¹.mulVec x = c⁻¹ • x := by
      rw [hSim, Matrix.add_mulVec, hSinv_x, Matrix.smul_mulVec_assoc, houter,
        smul_zero, add_zero]
    have hmeig : sm.S.mulVec x = c • x := by
      have h0 := congrArg (fun v => sm.S.mulVec v) hmx
      simp only [Matrix.mulVec_mulVec, Matrix.mul_nonsing_inv _ pdm.isUnit_det,
        Matrix.one_mulVec, Matrix.mulVec_smul] at h0
      calc sm.S.mulVec x = c • (c⁻¹ • sm.S.mulVec x) := by
            rw [smul_smul, mul_inv_cancel₀ hc, one_smul]
        _ = c • x := by rw [← h0]
    exact ih sm pdm hmeig (fun ob1 hob1 => horth ob1 (List.mem_cons_of_mem _ hob1)) h

lemma runCell_of_update_none {n p : ℕ} {s : BState p}
    {Phi : Matrix (Fin n) (Fin p) ℚ} {y : Fin n → ℚ} {σ : ℚ}
    (h : update s Phi y σ = none) : runCell s Phi y σ = s := by
  rcases (update_none_iff s Phi y σ).mp h with hd | hA
  · have h1 : npInv s.S = none := by rw [npInv_eq, if_pos hd]
    simp only [runCell, SnLine, h1]
  · by_cases hd : s.S.det = 0
    · have h1 : npInv s.S = none := by rw [npInv_eq, if_pos hd]
      simp only [runCell, SnLine, h1]
    · have h1 : npInv (Phiᵀ * Phi + σ ^ 2 • s.S⁻¹) = none := by
        rw [npInv_eq, if_pos hA]
      simp only [runCell, SnLine, npInv_of_det_ne hd, h1]

/-! ### Concrete instances from the notebook scenario -/

lemma fin2_quad (a b c d : ℚ) (x : Fin 2 → ℚ) :
    x ⬝ᵥ (!![a,b;c,d] : Matrix (Fin 2) (Fin 2) ℚ).mulVec x
      = a * (x 0 * x 0) + b * (x 0 * x 1) + c * (x 1 * x 0) + d * (x 1 * x 1) := by
  simp [Matrix.mulVec, Matrix.dotProduct, Fin.sum_univ_two]
  ring

lemma fin2_ne_zero {x : Fin 2 → ℚ} (hx : x ≠ 0) : x 0 ≠ 0 ∨ x 1 ≠ 0 := by
  by_contra hcon
  push_neg at hcon
  apply hx
  funext i
  fin_cases i
  · exact hcon.1
  · exact hcon.2

lemma posDefQ_so25 : PosDefQ (!![25,0;0,25] : Matrix (Fin 2) (Fin 2) ℚ) := by
  constructor
  · ext i j
    fin_cases i <;> fin_cases j <;> simp
  · intro x hx
    rw [fin2_quad]
    rcases fin2_ne_zero hx with h | h
    · nlinarith [mul_self_pos.mpr h, mul_self_nonneg (x 1)]
    · nlinarith [mul_self_pos.mpr h, mul_self_nonneg (x 0)]

lemma posDefQ_corr : PosDefQ (!![2,1;1,1] : Matrix (Fin 2) (Fin 2) ℚ) := by
  constructor
  · ext i j
    fin_cases i <;> fin_cases j <;> simp
  · intro x hx
    rw [fin2_quad]
    have key : 2 * (x 0 * x 0) + 1 * (x 0 * x 1) + 1 * (x 1 * x 0) + 1 * (x 1 * x 1)
        = x 0 * x 0 + (x 0 + x 1) * (x 0 + x 1) := by ring
    rw [key]
    rcases fin2_ne_zero hx with h | h
    · nlinarith [mul_self_pos.mpr h, mul_self_nonneg (x 0 + x 1)]
    · rcases eq_or_ne (x 0) 0 with h0 | h0
      · have : x 0 + x 1 ≠ 0 := by rw [h0, zero_add]; exact h
        nlinarith [mul_self_pos.mpr this, mul_self_nonneg (x 0)]
      · nlinarith [mul_self_pos.mpr h0, mul_self_nonneg (x 0 + x 1)]

lemma posSemidefQ_sing : PosSemidefQ (!![1,0;0,0] : Matrix (Fin 2) (Fin 2) ℚ) := by
  constructor
  · ext i j
    fin_cases i <;> fin_cases j <;> simp
  · intro x
    rw [fin2_quad]
    nlinarith [mul_self_nonneg (x 0)]

lemma sing_ne_zero : (!![1,0;0,0] : Matrix (Fin 2) (Fin 2) ℚ) ≠ 0 := by
  intro h
  have h00 := congrFun (congrFun h 0) 0
  simp at h00

lemma iso25 : (!![25,0;0,25] : Matrix (Fin 2) (Fin 2) ℚ)
    = (25:ℚ) • (1 : Matrix (Fin 2) (Fin 2) ℚ) := by
  ext i j
  fin_cases i <;> fin_cases j <;> simp [Matrix.one_apply]

/-- The notebook's first update: prior `mo = [0,0]`, `So = diag(25,25)`,
data `Phi = [[1,2]]`, `y = [2]`, `seps = 1`, evaluated exactly. -/
lemma hupdate25 :
    update (⟨![0,0], !![25,0;0,25]⟩ : BState 2) (!![1,2] : Matrix (Fin 1) (Fin 2) ℚ)
        ![2] 1
      = some ⟨![25/63, 50/63], !![2525/126, -625/63; -625/63, 325/63]⟩ := by
  have h1 : npInv (!![25,0;0,25] : Matrix (Fin 2) (Fin 2) ℚ)
      = some !![1/25,0;0,1/25] := by
    rw [npInv, if_neg (by norm_num [Matrix.det_fin_two_of])]
    congr 1
    rw [Matrix.adjugate_fin_two_of]
    ext i j
    fin_cases i <;> fin_cases j <;> simp [Matrix.det_fin_two_of] <;> norm_num
  have hPhi : ((!![1,2] : Matrix (Fin 1) (Fin 2) ℚ)ᵀ * (!![1,2] : Matrix (Fin 1) (Fin 2) ℚ)
      + (1:ℚ) ^ 2 • (!![1/25,0;0,1/25] : Matrix (Fin 2) (Fin 2) ℚ))
        = !![26/25,2;2,101/25] := by
    ext i j
    rw [Matrix.add_apply, Matrix.mul_apply]
    fin_cases i <;> fin_cases j <;> simp [Fin.sum_univ_one] <;> norm_num
  have h2 : npInv (!![(26:ℚ)/25,2;2,101/25] : Matrix (Fin 2) (Fin 2) ℚ)
      = some !![2525/126, -625/63; -625/63, 325/63] := by
    rw [npInv, if_neg (by norm_num [Matrix.det_fin_two_of])]
    congr 1
    rw [Matrix.adjugate_fin_two_of]
    ext i j
    fin_cases i <;> fin_cases j <;> simp [Matrix.det_fin_two_of] <;> norm_num
  have hSn : SnLine (!![25,0;0,25] : Matrix (Fin 2) (Fin 2) ℚ) !![1,2] 1
      = some !![2525/126, -625/63; -625/63, 325/63] := by
    simp only [SnLine, h1]
    rw [hPhi]
    simp only [h2, one_pow, one_smul]
  have hsolve : npSolve (!![25,0;0,25] : Matrix (Fin 2) (Fin 2) ℚ) ![0,0]
      = some ![0,0] := by
    simp only [npSolve, h1, Option.map_some']
    congr 1
    funext i
    fin_cases i <;> simp [Matrix.mulVec, Matrix.dotProduct, Fin.sum_univ_two]
  have hvec : (!![2525/126, -625/63; -625/63, 325/63] : Matrix (Fin 2) (Fin 2) ℚ).mulVec
        ![0,0]
      + ((1:ℚ) ^ 2)⁻¹ • (!![2525/126, -625/63; -625/63, 325/63] :
          Matrix (Fin 2) (Fin 2) ℚ).mulVec
        ((!![1,2] : Matrix (Fin 1) (Fin 2) ℚ)ᵀ.mulVec ![2]) = ![25/63, 50/63] := by
    funext i
    fin_cases i <;>
      simp [Matrix.mulVec, Matrix.dotProduct, Fin.sum_univ_two, Fin.sum_univ_one,
        Matrix.transpose_apply] <;> norm_num
  have hmn : mnLine (!![25,0;0,25] : Matrix (Fin 2) (Fin 2) ℚ) ![0,0]
      !![2525/126, -625/63; -625/63, 325/63] !![1,2] ![2] 1
      = some ![25/63, 50/63] := by
    simp only [mnLine, hsolve]
    rw [hvec]
  simp only [update, hSn, hmn]

/-- The orthogonal-direction counterexample update: correlated prior
`So = [[2,1],[1,1]]`, observation row `[1,0]`, target `0`, `seps = 1`. -/
lemma hupdate_corr :
    update1 (⟨![0,0], !![2,1;1,1]⟩ : BState 2) ![1,0] 0 1
      = some ⟨![0,0], !![2/3,1/3;1/3,2/3]⟩ := by
  have h1 : npInv (!![2,1;1,1] : Matrix (Fin 2) (Fin 2) ℚ) = some !![1,-1;-1,2] := by
    rw [npInv, if_neg (by norm_num [Matrix.det_fin_two_of])]
    congr 1
    rw [Matrix.adjugate_fin_two_of]
    ext i j
    fin_cases i <;> fin_cases j <;> simp [Matrix.det_fin_two_of] <;> norm_num
  have hPhi : ((Matrix.of ![(![1,0] : Fin 2 → ℚ)])ᵀ * Matrix.of ![(![1,0] : Fin 2 → ℚ)]
      + (1:ℚ) ^ 2 • (!![1,-1;-1,2] : Matrix (Fin 2) (Fin 2) ℚ)) = !![2,-1;-1,2] := by
    ext i j
    rw [Matrix.add_apply, Matrix.mul_apply]
    fin_cases i <;> fin_cases j <;> simp [Fin.sum_univ_one] <;> norm_num
  have h2 : npInv (!![(2:ℚ),-1;-1,2] : Matrix (Fin 2) (Fin 2) ℚ)
      = some !![2/3,1/3;1/3,2/3] := by
    rw [npInv, if_neg (by norm_num [Matrix.det_fin_two_of])]
    congr 1
    rw [Matrix.adjugate_fin_two_of]
    ext i j
    fin_cases i <;> fin_cases j <;> simp [Matrix.det_fin_two_of] <;> norm_num
  have hSn : SnLine (!![2,1;1,1] : Matrix (Fin 2) (Fin 2) ℚ)
      (Matrix.of ![(![1,0] : Fin 2 → ℚ)]) 1 = some !![2/3,1/3;1/3,2/3] := by
    simp only [SnLine, h1]
    rw [hPhi]
    simp only [h2, one_pow, one_smul]
  have hsolve : npSolve (!![2,1;1,1] : Matrix (Fin 2) (Fin 2) ℚ) ![0,0]
      = some ![0,0] := by
    simp only [npSolve, h1, Option.map_some']
    congr 1
    funext i
    fin_cases i <;> simp [Matrix.mulVec, Matrix.dotProduct, Fin.sum_univ_two]
  have hvec : (!![2/3,1/3;1/3,2/3] : Matrix (Fin 2) (Fin 2) ℚ).mulVec ![0,0]
      + ((1:ℚ) ^ 2)⁻¹ • (!![2/3,1/3;1/3,2/3] : Matrix (Fin 2) (Fin 2) ℚ).mulVec
        ((Matrix.of ![(![1,0] : Fin 2 → ℚ)])ᵀ.mulVec ![0]) = ![0,0] := by
    funext i
    fin_cases i <;>
      simp [Matrix.mulVec, Matrix.dotProduct, Fin.sum_univ_two, Fin.sum_univ_one,
        Matrix.transpose_apply]
  have hmn : mnLine (!![2,1;1,1] : Matrix (Fin 2) (Fin 2) ℚ) ![0,0]
      !![2/3,1/3;1/3,2/3] (Matrix.of ![(![1,0] : Fin 2 → ℚ)]) ![0] 1
      = some ![0,0] := by
    simp only [mnLine, hsolve]
    rw [hvec]
  show update (⟨![0,0], !![2,1;1,1]⟩ : BState 2) (Matrix.of ![(![1,0] : Fin 2 → ℚ)])
      ![0] 1 = some ⟨![0,0], !![2/3,1/3;1/3,2/3]⟩
  simp only [update, hSn, hmn]

/-- The update fails on the singular prior `So = [[1,0],[0,0]]`. -/
lemma hupdate_sing :
    update (⟨![0,0], !![1,0;0,0]⟩ : BState 2) (!![1,2] : Matrix (Fin 1) (Fin 2) ℚ)
        ![2] 1 = none := by
  apply (update_none_iff _ _ _ _).mpr
  left
  show (!![1,0;0,0] : Matrix (Fin 2) (Fin 2) ℚ).det = 0
  norm_num [Matrix.det_fin_two_of]

/-- Sequential form of the notebook's first update. -/
lemma hseq25 :
    seqUpdate 1 (⟨![0,0], !![25,0;0,25]⟩ : BState 2) [((![1,2] : Fin 2 → ℚ), (2:ℚ))]
      = some ⟨![25/63, 50/63], !![2525/126, -625/63; -625/63, 325/63]⟩ := by
  have h1 : update1 (⟨![0,0], !![25,0;0,25]⟩ : BState 2) ![1,2] 2 1
      = some ⟨![25/63, 50/63], !![2525/126, -625/63; -625/63, 325/63]⟩ := hupdate25
  rw [seqUpdate, h1, Option.some_bind, seqUpdate]

/-! ### Claims -/

/-- C1: for a symmetric positive-definite current covariance and positive
noise variance, `update` computes `Σ₁ = σ²(ΦᵀΦ + σ²Σ⁻¹)⁻¹` and
`μ₁ = Σ₁Σ⁻¹μ + (1/σ²)Σ₁Φᵀy` from the current `(μ, Σ)` and replaces the
state with `(μ₁, Σ₁)`. -/
theorem C1_update_formula {n p : ℕ} (s : BState p) (Phi : Matrix (Fin n) (Fin p) ℚ)
    (y : Fin n → ℚ) (σ : ℚ) (hS : PosDefQ s.S) (hσ : 0 < σ ^ 2) :
    update s Phi y σ = some
      ⟨((σ ^ 2 • (Phiᵀ * Phi + σ ^ 2 • s.S⁻¹)⁻¹) * s.S⁻¹).mulVec s.m
          + (σ ^ 2)⁻¹ • ((σ ^ 2 • (Phiᵀ * Phi + σ ^ 2 • s.S⁻¹)⁻¹) * Phiᵀ).mulVec y,
        σ ^ 2 • (Phiᵀ * Phi + σ ^ 2 • s.S⁻¹)⁻¹⟩ := by
  have hσ1 : σ ≠ 0 := by
    intro h0
    rw [h0] at hσ
    norm_num at hσ
  rw [update_eq_formula s Phi y σ hS.det_ne_zero (A_posDefQ Phi hS hσ1).det_ne_zero]
  simp only [Matrix.mulVec_mulVec]

/-- C1 witness: the formula instantiated at the notebook's concrete
prior and observation. -/
theorem C1_update_formula_witness :
    PosDefQ (!![25,0;0,25] : Matrix (Fin 2) (Fin 2) ℚ) ∧ (0:ℚ) < 1 ^ 2 ∧
      update (⟨![0,0], !![25,0;0,25]⟩ : BState 2)
          (!![1,2] : Matrix (Fin 1) (Fin 2) ℚ) ![2] 1 = some
        ⟨(((1:ℚ) ^ 2 • ((!![1,2] : Matrix (Fin 1) (Fin 2) ℚ)ᵀ
                * (!![1,2] : Matrix (Fin 1) (Fin 2) ℚ)
              + (1:ℚ) ^ 2 • (!![25,0;0,25] : Matrix (Fin 2) (Fin 2) ℚ)⁻¹)⁻¹)
            * (!![25,0;0,25] : Matrix (Fin 2) (Fin 2) ℚ)⁻¹).mulVec ![0,0]
          + ((1:ℚ) ^ 2)⁻¹ • (((1:ℚ) ^ 2 • ((!![1,2] : Matrix (Fin 1) (Fin 2) ℚ)ᵀ
                * (!![1,2] : Matrix (Fin 1) (Fin 2) ℚ)
              + (1:ℚ) ^ 2 • (!![25,0;0,25] : Matrix (Fin 2) (Fin 2) ℚ)⁻¹)⁻¹)
            * (!![1,2] : Matrix (Fin 1) (Fin 2) ℚ)ᵀ).mulVec ![2],
          (1:ℚ) ^ 2 • ((!![1,2] : Matrix (Fin 1) (Fin 2) ℚ)ᵀ
                * (!![1,2] : Matrix (Fin 1) (Fin 2) ℚ)
              + (1:ℚ) ^ 2 • (!![25,0;0,25] : Matrix (Fin 2) (Fin 2) ℚ)⁻¹)⁻¹⟩ :=
  ⟨posDefQ_so25, by norm_num,
    C1_update_formula (⟨![0,0], !![25,0;0,25]⟩ : BState 2) !![1,2] ![2] 1
      posDefQ_so25 (by norm_num)⟩

/-- C2 (amended): `predict` returns mean `xᵀμ` and variance `σ² + xᵀΣx`;
the variance is at least `σ²` for every `x` when `Σ` is symmetric
positive-semidefinite, and strictly greater than `σ²` for SOME `x`
whenever `Σ` is additionally nonzero (not for every `x`, contrary to the
claim as stated). -/
theorem C2_predict_correct {p : ℕ} (s : BState p) (σ : ℚ) :
    (∀ x, predictMean s x = x ⬝ᵥ s.m) ∧
    (∀ x, predictVar s x σ = σ ^ 2 + x ⬝ᵥ s.S.mulVec x) ∧
    (PosSemidefQ s.S → ∀ x, σ ^ 2 ≤ predictVar s x σ) ∧
    (PosSemidefQ s.S → s.S ≠ 0 → ∃ x, σ ^ 2 < predictVar s x σ) := by
  refine ⟨fun x => rfl, fun x => rfl, fun hpsd x => ?_, fun hpsd hne => ?_⟩
  · rw [predictVar]
    have := hpsd.2 x
    linarith
  · obtain ⟨i, hi⟩ := hpsd.exists_diag_pos hne
    refine ⟨Pi.single i 1, ?_⟩
    rw [predictVar]
    have hdot : (Pi.single i (1:ℚ)) ⬝ᵥ s.S.mulVec (Pi.single i 1) = s.S i i := by
      rw [Matrix.mulVec_single, Matrix.single_dotProduct]
      simp
    rw [hdot]
    linarith

/-- C2 counterexample: with the nonzero positive-semidefinite covariance
`diag(1,0)`, the predictive variance at `x = (0,1)` equals `σ²` exactly,
so it is not strictly greater than `σ²` for every `x`. -/
theorem C2_counterexample :
    PosSemidefQ (!![1,0;0,0] : Matrix (Fin 2) (Fin 2) ℚ) ∧
    (!![1,0;0,0] : Matrix (Fin 2) (Fin 2) ℚ) ≠ 0 ∧
    ¬ ((1:ℚ) ^ 2 < predictVar (⟨![0,0], !![1,0;0,0]⟩ : BState 2) ![0,1] 1) := by
  refine ⟨posSemidefQ_sing, sing_ne_zero, ?_⟩
  have : predictVar (⟨![0,0], !![1,0;0,0]⟩ : BState 2) ![0,1] 1 = 1 := by
    rw [predictVar]
    show (1:ℚ) ^ 2 + (![0,1] : Fin 2 → ℚ) ⬝ᵥ
      (!![1,0;0,0] : Matrix (Fin 2) (Fin 2) ℚ).mulVec ![0,1] = 1
    rw [fin2_quad]
    norm_num
  rw [this]
  norm_num

/-- C2 witness: the amended inequalities hold at the same state. -/
theorem C2_predict_correct_witness :
    ((1:ℚ) ^ 2 ≤ predictVar (⟨![0,0], !![1,0;0,0]⟩ : BState 2) ![0,1] 1) ∧
    (∃ x, (1:ℚ) ^ 2 < predictVar (⟨![0,0], !![1,0;0,0]⟩ : BState 2) x 1) :=
  ⟨(C2_predict_correct (⟨![0,0], !![1,0;0,0]⟩ : BState 2) 1).2.2.1 posSemidefQ_sing ![0,1],
    (C2_predict_correct (⟨![0,0], !![1,0;0,0]⟩ : BState 2) 1).2.2.2 posSemidefQ_sing
      sing_ne_zero⟩

/-- C3: from a symmetric positive-definite prior with fixed positive
noise variance, one batch update over the observations of `l` produces
exactly the same state as one single-row update per observation in any
order (any permutation `l'` of `l`), in exact arithmetic. -/
theorem C3_batch_eq_sequential {p : ℕ} (s : BState p) (σ : ℚ)
    (l l' : List ((Fin p → ℚ) × ℚ)) (hperm : l.Perm l')
    (hS : PosDefQ s.S) (hσ : σ ≠ 0) :
    seqUpdate σ s l' = update s (batchPhi l) (batchY l) σ := by
  obtain ⟨s1, h1, pd1, hS1, hm1⟩ := seqUpdate_info hσ l' s hS
  obtain ⟨s2, h2⟩ := update_isSome s (batchPhi l) (batchY l) hS hσ
  obtain ⟨pd2, hS2, hm2⟩ := update_spec hS hσ h2
  rw [batchPhi_gram] at hS2
  rw [batchPhi_vec] at hm2
  have hsumM : ((l'.map fun ob => outerQ ob.1).sum : Matrix (Fin p) (Fin p) ℚ)
      = (l.map fun ob => outerQ ob.1).sum :=
    ((hperm.map fun ob => outerQ ob.1).sum_eq).symm
  have hsumV : ((l'.map fun ob => ob.2 • ob.1).sum : Fin p → ℚ)
      = (l.map fun ob => ob.2 • ob.1).sum :=
    ((hperm.map fun ob => ob.2 • ob.1).sum_eq).symm
  have heq : s1 = s2 := by
    apply state_eq_of_info pd1 pd2
    · rw [hS1, hS2, hsumM]
    · rw [hm1, hm2, hsumV]
  rw [h1, h2, heq]

/-- C3 witness: batch and sequential agree at the notebook's concrete
prior and single observation. -/
theorem C3_batch_eq_sequential_witness :
    seqUpdate 1 (⟨![0,0], !![25,0;0,25]⟩ : BState 2) [((![1,2] : Fin 2 → ℚ), (2:ℚ))]
      = update (⟨![0,0], !![25,0;0,25]⟩ : BState 2)
          (batchPhi [((![1,2] : Fin 2 → ℚ), (2:ℚ))])
          (batchY [((![1,2] : Fin 2 → ℚ), (2:ℚ))]) 1 :=
  C3_batch_eq_sequential (⟨![0,0], !![25,0;0,25]⟩ : BState 2) 1
    [((![1,2] : Fin 2 → ℚ), (2:ℚ))] [((![1,2] : Fin 2 → ℚ), (2:ℚ))]
    (List.Perm.refl _) posDefQ_so25 one_ne_zero

/-- C4 counterexample: at the spec's concrete scenario (prior mean 0,
prior covariance diag(25,25), `Phi = [[1,2]]`, `y = [2]`, `seps = 1`),
the code produces `Σ₁₀₀ = 2525/126 ≈ 20.04`, nowhere near the claimed
`0.962`. -/
theorem C4_counterexample :
    update (⟨![0,0], !![25,0;0,25]⟩ : BState 2) (!![1,2] : Matrix (Fin 1) (Fin 2) ℚ)
        ![2] 1
      = some ⟨![25/63, 50/63], !![2525/126, -625/63; -625/63, 325/63]⟩ ∧
    ¬ |(2525/126 : ℚ) - 962/1000| ≤ 1/2 := by
  refine ⟨hupdate25, ?_⟩
  rw [abs_of_pos (by norm_num)]
  norm_num

/-- C4 (amended): the update at that scenario produces
`Σ₁ = [[2525/126, -625/63], [-625/63, 325/63]] ≈ [[20.04, -9.92], [-9.92, 5.16]]`
and `μ₁ = [25/63, 50/63]`, which satisfies `b + 2w = 125/63 ≈ 2`. -/
theorem C4_amended :
    update (⟨![0,0], !![25,0;0,25]⟩ : BState 2) (!![1,2] : Matrix (Fin 1) (Fin 2) ℚ)
        ![2] 1
      = some ⟨![25/63, 50/63], !![2525/126, -625/63; -625/63, 325/63]⟩ ∧
    |(25/63 + 2 * (50/63) : ℚ) - 2| ≤ 1/50 := by
  refine ⟨hupdate25, ?_⟩
  rw [show (25/63 + 2 * (50/63) : ℚ) - 2 = -(1/63) by norm_num, abs_neg,
    abs_of_pos (by norm_num)]
  norm_num

/-- C5: whenever the covariance is symmetric positive-semidefinite, the
noise deviate is nonzero and the update succeeds, the posterior
covariance is again symmetric positive-semidefinite (in exact
arithmetic it is in fact positive definite). -/
theorem C5_covariance_psd {n p : ℕ} {s s1 : BState p}
    {Phi : Matrix (Fin n) (Fin p) ℚ} {y : Fin n → ℚ} {σ : ℚ}
    (hpsd : PosSemidefQ s.S) (hσ : σ ≠ 0) (h : update s Phi y σ = some s1) :
    PosSemidefQ s1.S := by
  have hd : s.S.det ≠ 0 := (update_some_inv h).1
  have hS : PosDefQ s.S := hpsd.posDefQ_of_det_ne hd
  exact ((update_spec hS hσ h).1).posSemidefQ

/-- C5 witness: the invariant holds at the notebook's concrete update. -/
theorem C5_covariance_psd_witness :
    PosSemidefQ (!![25,0;0,25] : Matrix (Fin 2) (Fin 2) ℚ) ∧
    PosSemidefQ (!![2525/126, -625/63; -625/63, 325/63] : Matrix (Fin 2) (Fin 2) ℚ) :=
  ⟨posDefQ_so25.posSemidefQ,
    C5_covariance_psd posDefQ_so25.posSemidefQ one_ne_zero hupdate25⟩

/-- C6: for every design vector `x`, a successful update from a
symmetric positive-definite covariance never increases the predictive
variance at `x` (in particular for observations aligned with `x`). -/
theorem C6_predictVar_nonincreasing {n p : ℕ} {s s1 : BState p}
    {Phi : Matrix (Fin n) (Fin p) ℚ} {y : Fin n → ℚ} {σ : ℚ}
    (hS : PosDefQ s.S) (hσ : σ ≠ 0) (h : update s Phi y σ = some s1)
    (x : Fin p → ℚ) : predictVar s1 x σ ≤ predictVar s x σ :=
  predictVar_mono hS hσ h x

/-- C6 witness: at the notebook's update the predictive variance at
`x = (1,0)` drops from 26 to `1 + 2525/126`. -/
theorem C6_predictVar_nonincreasing_witness :
    PosDefQ (!![25,0;0,25] : Matrix (Fin 2) (Fin 2) ℚ) ∧
    predictVar (⟨![25/63, 50/63],
        !![2525/126, -625/63; -625/63, 325/63]⟩ : BState 2) ![1,0] 1
      ≤ predictVar (⟨![0,0], !![25,0;0,25]⟩ : BState 2) ![1,0] 1 :=
  ⟨posDefQ_so25,
    C6_predictVar_nonincreasing posDefQ_so25 one_ne_zero hupdate25 ![1,0]⟩

/-- C7 counterexample: with the symmetric positive-definite but
correlated prior `Σ = [[2,1],[1,1]]`, one update on the row `(1,0)`
strictly shrinks the epistemic term `xᵀΣx` at the orthogonal direction
`x = (0,1)` (from 1 to 2/3), so the term does not grow or stay constant
in directions orthogonal to all seen rows in general. -/
theorem C7_counterexample :
    PosDefQ (!![2,1;1,1] : Matrix (Fin 2) (Fin 2) ℚ) ∧
    (![1,0] : Fin 2 → ℚ) ⬝ᵥ ![0,1] = 0 ∧
    update1 (⟨![0,0], !![2,1;1,1]⟩ : BState 2) ![1,0] 0 1
      = some ⟨![0,0], !![2/3,1/3;1/3,2/3]⟩ ∧
    epiVar (⟨![0,0], !![2/3,1/3;1/3,2/3]⟩ : BState 2) ![0,1]
      < epiVar (⟨![0,0], !![2,1;1,1]⟩ : BState 2) ![0,1] := by
  refine ⟨posDefQ_corr, ?_, hupdate_corr, ?_⟩
  · simp [Matrix.dotProduct, Fin.sum_univ_two]
  · show (![0,1] : Fin 2 → ℚ) ⬝ᵥ (!![2/3,1/3;1/3,2/3] :
        Matrix (Fin 2) (Fin 2) ℚ).mulVec ![0,1]
      < (![0,1] : Fin 2 → ℚ) ⬝ᵥ (!![2,1;1,1] : Matrix (Fin 2) (Fin 2) ℚ).mulVec ![0,1]
    rw [fin2_quad, fin2_quad]
    norm_num

/-- C7 (amended): when the prior covariance at the start of the run is a
positive scalar multiple of the identity (as in the notebook,
`diag(25,25)`), the epistemic term `xᵀΣx` stays exactly constant — in
particular it does not shrink — along any sequence of updates whose
design rows are all orthogonal to `x`; with a correlated prior it can
strictly shrink. -/
theorem C7_epistemic_orthogonal {p : ℕ} {σ c : ℚ} (hσ : σ ≠ 0) (hc : 0 < c)
    (s : BState p) (hiso : s.S = c • (1 : Matrix (Fin p) (Fin p) ℚ))
    (x : Fin p → ℚ) (l : List ((Fin p → ℚ) × ℚ))
    (horth : ∀ ob ∈ l, ob.1 ⬝ᵥ x = 0) {s1 : BState p}
    (h : seqUpdate σ s l = some s1) : epiVar s1 x = epiVar s x := by
  have hpd : PosDefQ s.S := by
    rw [hiso]
    exact posDefQ_one.smul hc
  have heig0 : s.S.mulVec x = c • x := by
    rw [hiso, Matrix.smul_mulVec_assoc, Matrix.one_mulVec]
  have heig1 := seqUpdate_eigen hσ (ne_of_gt hc) l s hpd heig0 horth h
  rw [epiVar, epiVar, heig1, heig0]

/-- C7 witness: at the notebook's isotropic prior `diag(25,25)` and the
observation row `(1,2)`, the epistemic term at the orthogonal direction
`(2,-1)` is unchanged by the update. -/
theorem C7_epistemic_orthogonal_witness :
    (∀ ob ∈ [((![1,2] : Fin 2 → ℚ), (2:ℚ))], ob.1 ⬝ᵥ (![2,-1] : Fin 2 → ℚ) = 0) ∧
    epiVar (⟨![25/63, 50/63],
        !![2525/126, -625/63; -625/63, 325/63]⟩ : BState 2) ![2,-1]
      = epiVar (⟨![0,0], !![25,0;0,25]⟩ : BState 2) ![2,-1] := by
  have horth : ∀ ob ∈ [((![1,2] : Fin 2 → ℚ), (2:ℚ))],
      ob.1 ⬝ᵥ (![2,-1] : Fin 2 → ℚ) = 0 := by
    intro ob hob
    rw [List.mem_singleton] at hob
    rw [hob]
    simp [Matrix.dotProduct, Fin.sum_univ_two]
  exact ⟨horth,
    C7_epistemic_orthogonal one_ne_zero (by norm_num)
      (⟨![0,0], !![25,0;0,25]⟩ : BState 2) iso25 ![2,-1]
      [((![1,2] : Fin 2 → ℚ), (2:ℚ))] horth hseq25⟩

/-- C8: when an update fails (a singular matrix makes one of numpy's
linear-algebra calls raise), the notebook's state variables are left
exactly as they were: no partial update is committed and the failure is
surfaced (the update returns no new state). -/
theorem C8_no_partial_update {n p : ℕ} {s : BState p}
    {Phi : Matrix (Fin n) (Fin p) ℚ} {y : Fin n → ℚ} {σ : ℚ}
    (h : update s Phi y σ = none) : runCell s Phi y σ = s :=
  runCell_of_update_none h

/-- C8 witness: the update from the singular prior `diag(1,0)` fails and
leaves the state untouched. -/
theorem C8_no_partial_update_witness :
    update (⟨![0,0], !![1,0;0,0]⟩ : BState 2) (!![1,2] : Matrix (Fin 1) (Fin 2) ℚ)
        ![2] 1 = none ∧
    runCell (⟨![0,0], !![1,0;0,0]⟩ : BState 2) (!![1,2] : Matrix (Fin 1) (Fin 2) ℚ)
        ![2] 1 = ⟨![0,0], !![1,0;0,0]⟩ :=
  ⟨hupdate_sing, C8_no_partial_update hupdate_sing⟩

/-! ### The model/guide support mismatch at site `s` -/

/-- Distribution families, with the parameters used at site `s` by the
notebook's `model_obs` and `guide`. -/
inductive PyroDist
  | normal (loc scale : ℚ)
  | uniform (lo hi : ℚ)

/-- Modelled from the spec: the support of each distribution family (the
probabilistic library is external code) — a Normal has full support, a
Uniform is supported between its bounds. -/
def PyroDist.support : PyroDist → Set ℚ
  | .normal _ _ => Set.univ
  | .uniform lo hi => Set.Ico lo hi

/-- Modelled from the spec: a value is a valid scale parameter for a
Normal likelihood (the library rejects non-positive scales, making the
log-density undefined there) iff it is positive. -/
def validNormalScale (s : ℚ) : Prop := 0 < s

/-- Site `s` of `model_obs`: `pyro.sample("s", Uniform(0.01, 10.0))`. -/
def model_site_s : PyroDist := .uniform (1/100) 10

/-- Site `s` of `guide`: `pyro.sample("s", Normal(s_loc, 0.05))`, with
`s_loc` initialised to `1.0`. -/
def guide_site_s : PyroDist := .normal 1 (1/20)

/-- C10: the guide's distribution for site `s` puts the value `-1`
inside its support, while that value lies outside the support of the
model's prior for `s` and is an invalid scale for the Normal
likelihood — the guide can propose an `s` the model cannot score. -/
theorem C10_guide_support_mismatch :
    (-1 : ℚ) ∈ guide_site_s.support ∧
    (-1 : ℚ) ∉ model_site_s.support ∧
    ¬ validNormalScale (-1) := by
  refine ⟨Set.mem_univ _, ?_, by norm_num [validNormalScale]⟩
  rw [model_site_s, PyroDist.support, Set.mem_Ico]
  push_neg
  intro h
  norm_num at h
